import Mathlib

/-!
Verification of the text-dedup core (`text_dedup/minhash.py`,
`text_dedup/exact_hash.py`, `text_dedup/utils/tokenization.py`).

The Python code is shallowly embedded: strings are `List Char`, numpy
`uint64` vectors are `List ℕ` with explicit `% 2^64` where numpy wraps,
and the two pipeline drivers become pure functions from a corpus
(a `List (List Char)` respectively a list of digests) to keep/drop data.
-/

namespace TextDedup

/-- Character class of the regex `NON_ALPHA = re.compile("[^A-Za-z_0-9]")`:
a character is a word character iff it is ASCII alphanumeric or `_`.
The regex matches exactly one non-word character per occurrence. -/
def isWordChar (c : Char) : Bool :=
  ('A' ≤ c && c ≤ 'Z') || ('a' ≤ c && c ≤ 'z') || ('0' ≤ c && c ≤ '9') || (c == '_')

/-- Semantics of Python `re.split("[^A-Za-z_0-9]", s)`: split the string at
every single non-word character, keeping empty pieces (leading, trailing, or
between two adjacent delimiters).  `splitNonAlpha "" = [""]`. -/
def splitNonAlpha : List Char → List (List Char)
  | [] => [[]]
  | c :: rest =>
    let r := splitNonAlpha rest
    if isWordChar c then
      match r with
      | [] => [[c]]
      | t :: ts => (c :: t) :: ts
    else
      [] :: r

/-- Contiguous windows of length `n`; semantics of the `tee`/`zip` construction
in `ngrams` (the zip of `n` iterators shifted by `0, …, n−1` stops at the
shortest, yielding `seq[i : i+n]` for `i ∈ [0, L−n]`; `zip()` of zero
iterators is empty). -/
def windows (seq : List (List Char)) (n : ℕ) : List (List (List Char)) :=
  if n = 0 then []
  else (List.range (seq.length + 1 - n)).map (fun i => (seq.drop i).take n)

/-- Embedding of `text_dedup.utils.tokenization.ngrams(sequence, n, min_length)`:
short sequences give no ngrams, sequences shorter than `n` give the single
tuple of all tokens, otherwise all contiguous windows of length `n`. -/
def ngrams (seq : List (List Char)) (n : ℕ) (minLength : ℕ) :
    List (List (List Char)) :=
  if seq.length < minLength then []
  else if seq.length < n then [seq]
  else windows seq n

/-- Python `" ".join(tokens)`. -/
def joinSpace : List (List Char) → List Char
  | [] => []
  | [t] => t
  | t :: rest => t ++ ' ' :: joinSpace rest

/-- Shingle set of `embed_func`:
`tokens = {" ".join(t) for t in ngrams(NON_ALPHA.split(content), ngram_size)}`.
The Python set is modelled as the order-preserving deduplication of the
rendered window list (set iteration order is arbitrary; the signature is
proved order-invariant). -/
def shingleList (content : List Char) (n : ℕ) : List (List Char) :=
  ((ngrams (splitNonAlpha content) n 5).map joinSpace).dedup

/-- Constant `MAX_HASH = np.uint64((1 << 32) - 1)`. -/
def MAX_HASH : ℕ := 2 ^ 32 - 1

/-- Constant `MERSENNE_PRIME = np.uint64((1 << 61) - 1)`. -/
def MERSENNE_PRIME : ℕ := 2 ^ 61 - 1

/-- Wrapping `uint64` multiplication, as performed elementwise by numpy on
`dtype=np.uint64` arrays. -/
def mul64 (x y : ℕ) : ℕ := x * y % 2 ^ 64

/-- Wrapping `uint64` addition, as performed elementwise by numpy on
`dtype=np.uint64` arrays. -/
def add64 (x y : ℕ) : ℕ := (x + y) % 2 ^ 64

/-- Row of permuted hash values for one shingle hash `h`: the elementwise
semantics of `np.bitwise_and(((hv * np.tile(a, (len(hv), 1)).T).T + b)
% MERSENNE_PRIME, MAX_HASH)` restricted to the row of `h`.  The broadcasting
produces, in slot `i`, `((h *₆₄ a[i]) +₆₄ b[i]) % P & MASK` where `*₆₄`/`+₆₄`
wrap at `2^64`. -/
def permRow (h : ℕ) (A B : List ℕ) : List ℕ :=
  List.zipWith (fun a b => add64 (mul64 h a) b % MERSENNE_PRIME &&& MAX_HASH) A B

/-- Signature from an ordered list of shingle tokens:
`hashvalues = np.ones(num_perm, dtype=np.uint64) * MAX_HASH` followed by
`np.vstack([phv, hashvalues]).min(axis=0)`, i.e. the elementwise minimum of
the initial all-ones row and every permuted-hash row. -/
def sigFromTokens (hashFn : List Char → ℕ) (A B : List ℕ) (k : ℕ)
    (tokens : List (List Char)) : List ℕ :=
  tokens.foldl (fun acc t => List.zipWith min acc (permRow (hashFn t) A B))
    (List.replicate k MAX_HASH)

/-- Signature of one record's content (`embed_func` up to the band slicing). -/
def sigOf (hashFn : List Char → ℕ) (A B : List ℕ) (k n : ℕ)
    (content : List Char) : List ℕ :=
  sigFromTokens hashFn A B k (shingleList content n)

/-- Little-endian byte serialization of a `uint64` value, the memory layout
read back by `bytes(arr.data)` on a native little-endian array. -/
def leBytes64 (v : ℕ) : List ℕ :=
  [v % 256, v / 2 ^ 8 % 256, v / 2 ^ 16 % 256, v / 2 ^ 24 % 256,
   v / 2 ^ 32 % 256, v / 2 ^ 40 % 256, v / 2 ^ 48 % 256, v / 2 ^ 56 % 256]

/-- Value of a `uint64` after `ndarray.byteswap()`: the number whose bytes in
memory are the reverse of the bytes of `v`. -/
def byteswap64 (v : ℕ) : ℕ :=
  v % 256 * 2 ^ 56 + v / 2 ^ 8 % 256 * 2 ^ 48 + v / 2 ^ 16 % 256 * 2 ^ 40 +
    v / 2 ^ 24 % 256 * 2 ^ 32 + v / 2 ^ 32 % 256 * 2 ^ 24 +
    v / 2 ^ 40 % 256 * 2 ^ 16 + v / 2 ^ 48 % 256 * 2 ^ 8 + v / 2 ^ 56 % 256

/-- Big-endian byte serialization of a `uint64` value.  This definition
follows the specification's words ("the big-endian encoding of consecutive
signature entries") and is compared with the source's
byteswap-then-serialize pipeline. -/
def beBytes64 (v : ℕ) : List ℕ :=
  [v / 2 ^ 56 % 256, v / 2 ^ 48 % 256, v / 2 ^ 40 % 256, v / 2 ^ 32 % 256,
   v / 2 ^ 24 % 256, v / 2 ^ 16 % 256, v / 2 ^ 8 % 256, v % 256]

/-- Band key bytes `bytes(hashvalues[start:end].byteswap().data)`. -/
def bandKeyBytes (sig : List ℕ) (s e : ℕ) : List ℕ :=
  (((sig.drop s).take (e - s)).map (fun v => leBytes64 (byteswap64 v))).flatten

/-- `HASH_RANGES = [(i * R, (i + 1) * R) for i in range(B)]`. -/
def hashranges (B R : ℕ) : List (ℕ × ℕ) :=
  (List.range B).map (fun i => (i * R, (i + 1) * R))

/-- Band keys of one record:
`Hs = [bytes(hashvalues[start:end].byteswap().data) for start, end in hashranges]`. -/
def bandKeysOf (hashFn : List Char → ℕ) (A B : List ℕ) (k n bB bR : ℕ)
    (content : List Char) : List (List ℕ) :=
  (hashranges bB bR).map (fun se => bandKeyBytes (sigOf hashFn A B k n content) se.1 se.2)

/-- Fuel-driven root chase used to implement `find`; with the parent map
decreasing (`parent x ≤ x`), fuel `x + 1` always reaches the root of `x`. -/
def findFuel (p : ℕ → ℕ) : ℕ → ℕ → ℕ
  | 0, x => x
  | f + 1, x => if p x = x then x else findFuel p f (p x)

/-- Modelled from the spec: the `UnionFind` class imported from
`text_dedup.utils` is not part of the given sources.  The spec describes it
as mapping each id to a parent id, with `find` returning the root and
`union(x, y)` setting `parent[max(rx, ry)] = min(rx, ry)` (no-op when the
roots coincide), so that roots are the minimum id of their component.  The
decreasing-parent invariant `parent x ≤ x` is carried in the structure. -/
structure UnionFind where
  parent : ℕ → ℕ
  le : ∀ x, parent x ≤ x

/-- Root of `x`: path-compressed `find` of the spec (compression changes no
`find` value, so only the returned root is modelled). -/
def UnionFind.find (uf : UnionFind) (x : ℕ) : ℕ :=
  findFuel uf.parent (x + 1) x

/-- Modelled from the spec: `union(x, y)` computes the two roots and attaches
the larger root under the smaller one; no-op if they coincide. -/
def UnionFind.union (uf : UnionFind) (x y : ℕ) : UnionFind :=
  let px := uf.find x
  let py := uf.find y
  if px = py then uf
  else
    { parent := fun z => if z = max px py then min px py else uf.parent z
      le := fun z => by
        by_cases hz : z = max px py
        · simp only [hz, if_pos rfl]
          exact le_trans (min_le_max) (le_of_eq rfl)
        · simpa [hz] using uf.le z }

/-- Fresh union–find: every id is its own parent. -/
def UnionFind.init : UnionFind := ⟨fun x => x, fun x => le_refl x⟩

/-- Python `min(cluster)` on a nonempty list (0 for the empty list, which the
clustering loop never passes). -/
def minOf : List ℕ → ℕ
  | [] => 0
  | x :: xs => xs.foldl min x

/-- Processing of one LSH bucket in the clustering loop:
`if len(cluster) <= 1: continue; idx = min(cluster); for x in cluster:
uf.union(x, idx)`. -/
def clusterStep (uf : UnionFind) (cluster : List ℕ) : UnionFind :=
  if cluster.length ≤ 1 then uf
  else cluster.foldl (fun u x => u.union x (minOf cluster)) uf

/-- Parameters of one fuzzy-dedup run: the shingle hash function
(`sha1_hash32`, external `hashlib`), the permutation arrays `a`, `b`
(sampled externally from the seeded RNG), `num_perm`, `ngram_size`, and the
band structure `B`, `R` from `optimal_param`. -/
structure FuzzyConfig where
  hashFn : List Char → ℕ
  A : List ℕ
  B : List ℕ
  numPerm : ℕ
  ngramSize : ℕ
  bands : ℕ
  rows : ℕ

/-- Band key of record `id` in band `t` (keys of empty bands default to `[]`;
all uses stay in range). -/
def keyAt (cfg : FuzzyConfig) (corpus : List (List Char)) (t id : ℕ) : List ℕ :=
  (bandKeysOf cfg.hashFn cfg.A cfg.B cfg.numPerm cfg.ngramSize cfg.bands cfg.rows
      (corpus.getD id [])).getD t []

/-- Keys present in hash table `t`, in first-insertion order (the clustering
loop inserts ids in increasing order, and `defaultdict` iterates keys in
insertion order). -/
def tableKeys (cfg : FuzzyConfig) (corpus : List (List Char)) (t : ℕ) : List (List ℕ) :=
  ((List.range corpus.length).map (keyAt cfg corpus t)).dedup

/-- Bucket of hash table `t` under key `kk`: the set of record ids whose
band-`t` key is `kk`, as the increasing list of ids. -/
def bucketOf (cfg : FuzzyConfig) (corpus : List (List Char)) (t : ℕ) (kk : List ℕ) :
    List ℕ :=
  (List.range corpus.length).filter (fun id => keyAt cfg corpus t id = kk)

/-- All buckets of all `B` hash tables, in the iteration order of the
clustering loop (tables in band order, buckets in key-insertion order). -/
def allBuckets (cfg : FuzzyConfig) (corpus : List (List Char)) : List (List ℕ) :=
  (List.range cfg.bands).flatMap
    (fun t => (tableKeys cfg corpus t).map (bucketOf cfg corpus t))

/-- Union–find state after the clustering loop. -/
def finalUF (cfg : FuzzyConfig) (corpus : List (List Char)) : UnionFind :=
  (allBuckets cfg corpus).foldl clusterStep UnionFind.init

/-- Filtering stage of the fuzzy pipeline: the `__cluster__` column is
`uf.find(idx)` and a record is kept iff `record["__cluster__"] == idx`. -/
def clusterColumn (cfg : FuzzyConfig) (corpus : List (List Char)) : List ℕ :=
  (List.range corpus.length).map (finalUF cfg corpus).find

/-- Ids kept by the fuzzy pipeline, in ascending order. -/
def keptIds (cfg : FuzzyConfig) (corpus : List (List Char)) : List ℕ :=
  (List.range corpus.length).filter
    (fun i => (clusterColumn cfg corpus).getD i 0 = i)

/-! ### Exact-hash engine

The digest functions (`md5_hexdigest`, `sha256_hexdigest`, `xxh3_128_digest`)
are external wrappers around `hashlib`/`xxhash`; the engine is modelled over
the list of digest values of the corpus, compared by value equality as in
the source's `hash_dict` lookups. -/

/-- `NUM_SHARDS = int(np.ceil(LEN_DATASET / args.batch_size))`. -/
def numShards (N batch : ℕ) : ℕ :=
  if batch = 0 then 0 else (N + batch - 1) / batch

/-- Length of contiguous shard `i` of `N` records in `S` shards, the
semantics of `ds.shard(num_shards=S, index=i, contiguous=True)` of the
dataset library: the first `N mod S` shards are one record longer. -/
def shardLen (N S i : ℕ) : ℕ :=
  N / S + if i < N % S then 1 else 0

/-- Start offset of contiguous shard `i`. -/
def shardStart (N S i : ℕ) : ℕ :=
  N / S * i + min i (N % S)

/-- Processing stage of `exact_hash.py`: shards are processed in order; for
each record of a shard, `mp_exact_finder` is called with the reconstructed
index `LEN_SHARD * shard_idx + batch_idx`; a digest already in the shared
dict sets the flag at that reconstructed index, otherwise it is inserted.
Returns the flags array. -/
def exactProcess (digests : List ℕ) (batch : ℕ) : List Bool :=
  let N := digests.length
  let S := numShards N batch
  ((List.range S).foldl
    (fun st si =>
      (List.range (shardLen N S si)).foldl
        (fun st2 bi =>
          let d := digests.getD (shardStart N S si + bi) 0
          let gidx := shardLen N S si * si + bi
          if d ∈ st2.1 then (st2.1, st2.2.set gidx true)
          else (d :: st2.1, st2.2))
        st)
    (([] : List ℕ), List.replicate N false)).2

/-- Filtering stage of `exact_hash.py`: keep record `i` iff `not flags[i]`;
the output corpus is represented by its digest list (digests are a function
of content, so equal contents keep equal digests across runs). -/
def exactOutput (digests : List ℕ) (batch : ℕ) : List ℕ :=
  ((digests.zip (exactProcess digests batch)).filter (fun p => !p.2)).map
    (fun p => p.1)

/-! ### LSH parameter oracle

`optimal_param` integrates the false-positive and false-negative
probabilities with `scipy.integrate.quad`; the resulting per-candidate
weighted error is abstracted as an arbitrary rational-valued function of
`(b, r)`, and the selection loop is embedded exactly. -/

/-- Candidate sweep of `optimal_param`:
`for b in range(1, num_perm + 1): max_r = int(num_perm / b);
for r in range(1, max_r + 1)` in scan order. -/
def sweepList (k : ℕ) : List (ℕ × ℕ) :=
  (List.range k).flatMap
    (fun b0 => (List.range (k / (b0 + 1))).map (fun r0 => (b0 + 1, r0 + 1)))

/-- Selection loop of `optimal_param`: `min_error` starts at `float("inf")`
(modelled as `none`), `opt = (0, 0)`, and a candidate replaces the optimum
only on strict improvement `error < min_error`. -/
def selectLoop (err : ℕ → ℕ → ℚ) :
    List (ℕ × ℕ) → Option ℚ → ℕ × ℕ → ℕ × ℕ
  | [], _, opt => opt
  | c :: rest, minErr, opt =>
    match minErr with
    | none => selectLoop err rest (some (err c.1 c.2)) c
    | some m =>
      if err c.1 c.2 < m then selectLoop err rest (some (err c.1 c.2)) c
      else selectLoop err rest (some m) opt

/-- Embedding of `optimal_param` over an abstract error function. -/
def optimalParam (err : ℕ → ℕ → ℚ) (k : ℕ) : ℕ × ℕ :=
  selectLoop err (sweepList k) none (0, 0)

/-! ### Union–find lemmas -/

theorem findFuel_le (p : ℕ → ℕ) (hp : ∀ z, p z ≤ z) :
    ∀ f x, findFuel p f x ≤ x := by
  intro f
  induction f with
  | zero => intro x; simp [findFuel]
  | succ f ih =>
    intro x
    simp only [findFuel]
    split
    · exact le_refl x
    · exact le_trans (ih (p x)) (hp x)

theorem findFuel_irrel (p : ℕ → ℕ) (hp : ∀ z, p z ≤ z) :
    ∀ f g x, x < f → x < g → findFuel p f x = findFuel p g x := by
  intro f
  induction f with
  | zero => intro g x hf; omega
  | succ f ih =>
    intro g x hf hg
    cases g with
    | zero => omega
    | succ g =>
      simp only [findFuel]
      split
      · rfl
      · rename_i hpx
        have hlt : p x < x := lt_of_le_of_ne (hp x) hpx
        exact ih g (p x) (by omega) (by omega)

theorem UnionFind.find_eq (uf : UnionFind) (x : ℕ) :
    uf.find x = if uf.parent x = x then x else uf.find (uf.parent x) := by
  unfold UnionFind.find
  simp only [findFuel]
  split
  · rfl
  · rename_i hpx
    have hlt : uf.parent x < x := lt_of_le_of_ne (uf.le x) hpx
    exact findFuel_irrel uf.parent uf.le x (uf.parent x + 1) (uf.parent x)
      (by omega) (by omega)

theorem UnionFind.find_le (uf : UnionFind) (x : ℕ) : uf.find x ≤ x :=
  findFuel_le uf.parent uf.le (x + 1) x

theorem UnionFind.parent_find (uf : UnionFind) (x : ℕ) :
    uf.parent (uf.find x) = uf.find x := by
  induction x using Nat.strong_induction_on with
  | _ x ih =>
    rw [UnionFind.find_eq]
    split
    · assumption
    · rename_i hpx
      exact ih (uf.parent x) (lt_of_le_of_ne (uf.le x) hpx)

theorem UnionFind.find_of_root (uf : UnionFind) (x : ℕ) (h : uf.parent x = x) :
    uf.find x = x := by
  rw [UnionFind.find_eq, if_pos h]

theorem UnionFind.find_find (uf : UnionFind) (x : ℕ) :
    uf.find (uf.find x) = uf.find x :=
  uf.find_of_root (uf.find x) (uf.parent_find x)

theorem UnionFind.union_parent (uf : UnionFind) (a b z : ℕ)
    (hab : uf.find a ≠ uf.find b) :
    (uf.union a b).parent z =
      if z = max (uf.find a) (uf.find b)
      then min (uf.find a) (uf.find b) else uf.parent z := by
  unfold UnionFind.union
  simp [hab]

/-- Characterization of `find` after a `union`: the two old roots are merged
into their minimum and every other root is untouched. -/
theorem UnionFind.union_find_char (uf : UnionFind) (a b z : ℕ) :
    (uf.union a b).find z =
      if uf.find z = max (uf.find a) (uf.find b)
      then min (uf.find a) (uf.find b) else uf.find z := by
  by_cases hab : uf.find a = uf.find b
  · have huf : uf.union a b = uf := by
      unfold UnionFind.union
      simp [hab]
    rw [huf, hab]
    split
    · rename_i h
      simp only [max_self] at h
      simp [h]
    · rfl
  · have hM : uf.parent (max (uf.find a) (uf.find b)) = max (uf.find a) (uf.find b) := by
      rcases max_choice (uf.find a) (uf.find b) with h | h <;> rw [h]
      · exact uf.parent_find a
      · exact uf.parent_find b
    have hm : uf.parent (min (uf.find a) (uf.find b)) = min (uf.find a) (uf.find b) := by
      rcases min_choice (uf.find a) (uf.find b) with h | h <;> rw [h]
      · exact uf.parent_find a
      · exact uf.parent_find b
    have hmM : min (uf.find a) (uf.find b) < max (uf.find a) (uf.find b) :=
      min_lt_max.mpr hab
    induction z using Nat.strong_induction_on with
    | _ z ih =>
      rw [UnionFind.find_eq (uf.union a b) z]
      rw [UnionFind.union_parent uf a b z hab]
      by_cases hzM : z = max (uf.find a) (uf.find b)
      · rw [if_pos hzM]
        have hne : min (uf.find a) (uf.find b) ≠ z := by omega
        rw [if_neg hne]
        have hmfind : (uf.union a b).find (min (uf.find a) (uf.find b)) =
            min (uf.find a) (uf.find b) := by
          apply UnionFind.find_of_root
          rw [UnionFind.union_parent uf a b _ hab, if_neg (by omega)]
          exact hm
        rw [hmfind]
        have hz : uf.find z = z := by
          apply UnionFind.find_of_root
          rw [hzM]; exact hM
        rw [hz, if_pos hzM]
      · rw [if_neg hzM]
        by_cases hpz : uf.parent z = z
        · rw [hpz, if_pos rfl]
          rw [uf.find_of_root z hpz, if_neg hzM]
        · rw [if_neg hpz]
          have hlt : uf.parent z < z := lt_of_le_of_ne (uf.le z) hpz
          rw [ih (uf.parent z) hlt]
          rw [UnionFind.find_eq uf z, if_neg hpz]

theorem UnionFind.union_find_le (uf : UnionFind) (a b z : ℕ) :
    (uf.union a b).find z ≤ uf.find z := by
  rw [uf.union_find_char a b z]
  split
  · rename_i h; omega
  · exact le_refl _

/-- After `union a b`, the root of `a` is at most the old root of `b`. -/
theorem UnionFind.union_find_left_le (uf : UnionFind) (a b : ℕ) :
    (uf.union a b).find a ≤ uf.find b := by
  rw [uf.union_find_char a b a]
  rcases max_choice (uf.find a) (uf.find b) with h | h
  · rw [h]
    split
    · exact min_le_right _ _
    · rename_i hne; exact absurd rfl hne
  · split
    · exact min_le_right _ _
    · rename_i hne
      rw [h] at hne
      rcases min_choice (uf.find a) (uf.find b) with h2 | h2 <;> omega

theorem foldl_min_le_init : ∀ (xs : List ℕ) (a : ℕ), xs.foldl min a ≤ a := by
  intro xs
  induction xs with
  | nil => intro a; simp
  | cons x xs ih =>
    intro a
    simp only [List.foldl_cons]
    exact le_trans (ih (min a x)) (min_le_left a x)

theorem foldl_min_le_mem : ∀ (xs : List ℕ) (a y : ℕ), y ∈ xs → xs.foldl min a ≤ y := by
  intro xs
  induction xs with
  | nil => intro a y h; cases h
  | cons x xs ih =>
    intro a y h
    simp only [List.foldl_cons]
    rcases List.mem_cons.mp h with h | h
    · subst h
      exact le_trans (foldl_min_le_init xs (min a y)) (min_le_right a y)
    · exact ih (min a x) y h

theorem minOf_le_mem (l : List ℕ) (y : ℕ) (h : y ∈ l) : minOf l ≤ y := by
  cases l with
  | nil => cases h
  | cons x xs =>
    simp only [minOf]
    rcases List.mem_cons.mp h with h | h
    · subst h; exact foldl_min_le_init xs y
    · exact foldl_min_le_mem xs x y h

theorem foldl_union_find_le (l : List ℕ) (c : ℕ) :
    ∀ (uf : UnionFind) (z : ℕ),
      (l.foldl (fun u x => u.union x c) uf).find z ≤ uf.find z := by
  induction l with
  | nil => intro uf z; exact le_refl _
  | cons a l ih =>
    intro uf z
    simp only [List.foldl_cons]
    exact le_trans (ih (uf.union a c) z) (uf.union_find_le a c z)

theorem clusterStep_find_le (uf : UnionFind) (cluster : List ℕ) (z : ℕ) :
    (clusterStep uf cluster).find z ≤ uf.find z := by
  unfold clusterStep
  split
  · exact le_refl _
  · exact foldl_union_find_le cluster (minOf cluster) uf z

theorem foldl_clusterStep_find_le (buckets : List (List ℕ)) :
    ∀ (uf : UnionFind) (z : ℕ),
      (buckets.foldl clusterStep uf).find z ≤ uf.find z := by
  induction buckets with
  | nil => intro uf z; exact le_refl _
  | cons b buckets ih =>
    intro uf z
    simp only [List.foldl_cons]
    exact le_trans (ih (clusterStep uf b) z) (clusterStep_find_le uf b z)

/-- Processing a bucket that contains `i` drags the root of `i` down to at
most the bucket minimum. -/
theorem clusterStep_reaches_min (uf : UnionFind) (cluster : List ℕ) (i : ℕ)
    (hi : i ∈ cluster) (hlen : 2 ≤ cluster.length) :
    (clusterStep uf cluster).find i ≤ minOf cluster := by
  unfold clusterStep
  rw [if_neg (by omega)]
  obtain ⟨l1, l2, rfl⟩ := List.append_of_mem hi
  rw [List.foldl_append, List.foldl_cons]
  refine le_trans (foldl_union_find_le l2 (minOf (l1 ++ i :: l2)) _ i) ?_
  refine le_trans (UnionFind.union_find_left_le _ i (minOf (l1 ++ i :: l2))) ?_
  exact UnionFind.find_le _ _

/-- If some bucket of the run contains both `i` and a smaller id `j`, the
final root of `i` is at most the bucket minimum, hence at most `j`. -/
theorem foldl_clusterStep_reaches (buckets : List (List ℕ)) (bkt : List ℕ)
    (uf : UnionFind) (i : ℕ) (hb : bkt ∈ buckets) (hi : i ∈ bkt)
    (hlen : 2 ≤ bkt.length) :
    ((buckets.foldl clusterStep uf).find i) ≤ minOf bkt := by
  obtain ⟨l1, l2, rfl⟩ := List.append_of_mem hb
  rw [List.foldl_append, List.foldl_cons]
  refine le_trans (foldl_clusterStep_find_le l2 _ i) ?_
  exact clusterStep_reaches_min _ bkt i hi hlen

theorem two_le_length_of_mem (l : List ℕ) (a b : ℕ) (ha : a ∈ l) (hb : b ∈ l)
    (hne : a ≠ b) : 2 ≤ l.length := by
  obtain ⟨s, t, rfl⟩ := List.append_of_mem ha
  have hb2 : b ∈ s ∨ b ∈ t := by
    rcases List.mem_append.mp hb with h | h
    · exact Or.inl h
    · rcases List.mem_cons.mp h with h | h
      · exact absurd h.symm hne
      · exact Or.inr h
  rcases hb2 with h | h <;>
    · have := List.length_pos.mpr (List.ne_nil_of_mem h)
      simp [List.length_append]
      omega

/-! ### Fuzzy pipeline lemmas -/

theorem clusterColumn_getD (cfg : FuzzyConfig) (corpus : List (List Char)) (i : ℕ)
    (hi : i < corpus.length) :
    (clusterColumn cfg corpus).getD i 0 = (finalUF cfg corpus).find i := by
  unfold clusterColumn
  rw [List.getD_eq_getElem?_getD, List.getElem?_map, List.getElem?_range hi]
  rfl

theorem mem_keptIds (cfg : FuzzyConfig) (corpus : List (List Char)) (i : ℕ) :
    i ∈ keptIds cfg corpus ↔
      i < corpus.length ∧ (finalUF cfg corpus).find i = i := by
  unfold keptIds
  simp only [List.mem_filter, List.mem_range, decide_eq_true_eq]
  constructor
  · rintro ⟨h1, h2⟩
    exact ⟨h1, by rwa [clusterColumn_getD cfg corpus i h1] at h2⟩
  · rintro ⟨h1, h2⟩
    exact ⟨h1, by rwa [clusterColumn_getD cfg corpus i h1]⟩

theorem shingleList_short (content : List Char) (n : ℕ)
    (h : (splitNonAlpha content).length < 5) : shingleList content n = [] := by
  simp [shingleList, ngrams, h]

theorem sigOf_short (hashFn : List Char → ℕ) (A B : List ℕ) (k n : ℕ)
    (content : List Char) (h : (splitNonAlpha content).length < 5) :
    sigOf hashFn A B k n content = List.replicate k MAX_HASH := by
  simp [sigOf, shingleList_short content n h, sigFromTokens]

theorem mem_bucketOf (cfg : FuzzyConfig) (corpus : List (List Char)) (t : ℕ)
    (kk : List ℕ) (id : ℕ) :
    id ∈ bucketOf cfg corpus t kk ↔
      id < corpus.length ∧ keyAt cfg corpus t id = kk := by
  unfold bucketOf
  simp [List.mem_filter, List.mem_range]

theorem bucketOf_mem_allBuckets (cfg : FuzzyConfig) (corpus : List (List Char))
    (t i : ℕ) (ht : t < cfg.bands) (hi : i < corpus.length) :
    bucketOf cfg corpus t (keyAt cfg corpus t i) ∈ allBuckets cfg corpus := by
  unfold allBuckets
  rw [List.mem_flatMap]
  refine ⟨t, List.mem_range.mpr ht, ?_⟩
  rw [List.mem_map]
  refine ⟨keyAt cfg corpus t i, ?_, rfl⟩
  unfold tableKeys
  rw [List.mem_dedup, List.mem_map]
  exact ⟨i, List.mem_range.mpr hi, rfl⟩

/-- Concrete stand-in for the external 32-bit shingle hash, used only to
instantiate theorems at concrete inputs. -/
def demoHash (t : List Char) : ℕ :=
  t.foldl (fun a c => (a * 31 + c.toNat) % 2 ^ 32) 7

/-- Concrete fuzzy configuration for witnesses. -/
def demoCfg : FuzzyConfig :=
  { hashFn := demoHash, A := [1], B := [0], numPerm := 1, ngramSize := 1
    bands := 1, rows := 1 }

/-- Concrete two-record corpus for witnesses. -/
def demoCorpus : List (List Char) := [['a'], ['b']]

/-- C2: after the clustering stage of the fuzzy engine, `uf.find i ≤ i` for
every record id `i`; a record is kept iff `uf.find i = i`; and the root of
`i`'s cluster is itself a member of the cluster, is kept, and is the minimum
id of the cluster (so the kept id of every cluster, non-trivial or not, is
the cluster minimum). -/
theorem claim_C2_cluster_root_min (cfg : FuzzyConfig) (corpus : List (List Char))
    (i : ℕ) (hi : i < corpus.length) :
    (finalUF cfg corpus).find i ≤ i ∧
      (i ∈ keptIds cfg corpus ↔ (finalUF cfg corpus).find i = i) ∧
      (finalUF cfg corpus).find ((finalUF cfg corpus).find i) =
        (finalUF cfg corpus).find i ∧
      (finalUF cfg corpus).find i ∈ keptIds cfg corpus ∧
      (∀ j, (finalUF cfg corpus).find j = (finalUF cfg corpus).find i →
        (finalUF cfg corpus).find i ≤ j) := by
  refine ⟨UnionFind.find_le _ i, ?_, UnionFind.find_find _ i, ?_, ?_⟩
  · rw [mem_keptIds]
    exact ⟨fun h => h.2, fun h => ⟨hi, h⟩⟩
  · rw [mem_keptIds]
    exact ⟨lt_of_le_of_lt (UnionFind.find_le _ i) hi, UnionFind.find_find _ i⟩
  · intro j hj
    rw [← hj]
    exact UnionFind.find_le _ j

theorem claim_C2_cluster_root_min_witness :
    1 < demoCorpus.length ∧
      (finalUF demoCfg demoCorpus).find 1 ≤ 1 ∧
      (1 ∈ keptIds demoCfg demoCorpus ↔ (finalUF demoCfg demoCorpus).find 1 = 1) ∧
      (finalUF demoCfg demoCorpus).find 1 ∈ keptIds demoCfg demoCorpus :=
  ⟨by decide, (claim_C2_cluster_root_min demoCfg demoCorpus 1 (by decide)).1,
    (claim_C2_cluster_root_min demoCfg demoCorpus 1 (by decide)).2.1,
    (claim_C2_cluster_root_min demoCfg demoCorpus 1 (by decide)).2.2.2.1⟩

/-- C10: a record whose regex split yields fewer than 5 tokens (empty-string
tokens included) has an empty shingle set and the all-ones signature; any two
such records share all band keys; and a short record with a smaller-id short
record in the corpus is dropped, regardless of content. -/
theorem claim_C10_short_record_collapse (cfg : FuzzyConfig)
    (corpus : List (List Char)) (i j : ℕ) (hi : i < corpus.length)
    (hj : j < corpus.length) (hji : j < i)
    (hsi : (splitNonAlpha (corpus.getD i [])).length < 5)
    (hsj : (splitNonAlpha (corpus.getD j [])).length < 5)
    (hB : 1 ≤ cfg.bands) :
    shingleList (corpus.getD i []) cfg.ngramSize = [] ∧
      sigOf cfg.hashFn cfg.A cfg.B cfg.numPerm cfg.ngramSize (corpus.getD i []) =
        List.replicate cfg.numPerm MAX_HASH ∧
      bandKeysOf cfg.hashFn cfg.A cfg.B cfg.numPerm cfg.ngramSize cfg.bands
          cfg.rows (corpus.getD i []) =
        bandKeysOf cfg.hashFn cfg.A cfg.B cfg.numPerm cfg.ngramSize cfg.bands
          cfg.rows (corpus.getD j []) ∧
      i ∉ keptIds cfg corpus := by
  have hsig_i := sigOf_short cfg.hashFn cfg.A cfg.B cfg.numPerm cfg.ngramSize
    (corpus.getD i []) hsi
  have hsig_j := sigOf_short cfg.hashFn cfg.A cfg.B cfg.numPerm cfg.ngramSize
    (corpus.getD j []) hsj
  have hkeys : bandKeysOf cfg.hashFn cfg.A cfg.B cfg.numPerm cfg.ngramSize
      cfg.bands cfg.rows (corpus.getD i []) =
      bandKeysOf cfg.hashFn cfg.A cfg.B cfg.numPerm cfg.ngramSize cfg.bands
        cfg.rows (corpus.getD j []) := by
    unfold bandKeysOf
    rw [hsig_i, hsig_j]
  have hkeyAt : keyAt cfg corpus 0 j = keyAt cfg corpus 0 i := by
    unfold keyAt
    rw [hkeys]
  have hib : i ∈ bucketOf cfg corpus 0 (keyAt cfg corpus 0 i) :=
    (mem_bucketOf cfg corpus 0 _ i).mpr ⟨hi, rfl⟩
  have hjb : j ∈ bucketOf cfg corpus 0 (keyAt cfg corpus 0 i) :=
    (mem_bucketOf cfg corpus 0 _ j).mpr ⟨hj, hkeyAt⟩
  have hbkt : bucketOf cfg corpus 0 (keyAt cfg corpus 0 i) ∈ allBuckets cfg corpus :=
    bucketOf_mem_allBuckets cfg corpus 0 i (by omega) hi
  have hlen : 2 ≤ (bucketOf cfg corpus 0 (keyAt cfg corpus 0 i)).length :=
    two_le_length_of_mem _ i j hib hjb (by omega)
  have hreach : (finalUF cfg corpus).find i ≤
      minOf (bucketOf cfg corpus 0 (keyAt cfg corpus 0 i)) := by
    unfold finalUF
    exact foldl_clusterStep_reaches _ _ UnionFind.init i hbkt hib hlen
  have hminj : minOf (bucketOf cfg corpus 0 (keyAt cfg corpus 0 i)) ≤ j :=
    minOf_le_mem _ j hjb
  refine ⟨shingleList_short _ _ hsi, hsig_i, hkeys, ?_⟩
  rw [mem_keptIds]
  rintro ⟨_, hfix⟩
  omega

theorem claim_C10_short_record_collapse_witness :
    1 < demoCorpus.length ∧ (0 : ℕ) < 1 ∧
      (splitNonAlpha (demoCorpus.getD 1 [])).length < 5 ∧
      1 ∉ keptIds demoCfg demoCorpus :=
  ⟨by decide, by decide, by decide,
    (claim_C10_short_record_collapse demoCfg demoCorpus 1 0 (by decide)
      (by decide) (by decide) (by decide) (by decide) (by decide)).2.2.2⟩

/-- C1 (code bug): on the corpus with digests `[0, 1, 0]` and
`batch_size = 2` the contiguous shards have lengths `2` and `1`, and the
reconstructed index `LEN_SHARD * shard_idx + batch_idx` of the single record
of shard 1 is `1` instead of `2`.  The engine therefore produces the flags
`[false, true, false]` — dropping the unique record `1` and keeping both
records with digest `0` — where the claimed behaviour (exactly the smallest
id per digest unflagged) requires `[false, false, true]`. -/
theorem claim_C1_exact_flags_bug :
    exactProcess [0, 1, 0] 2 = [false, true, false] ∧
      exactProcess [0, 1, 0] 2 ≠ [false, false, true] := by
  decide

/-- C6 (code bug): the exact pipeline is not idempotent.  On digests
`[0, 1, 0]` with `batch_size = 2` the off-by-shard flagging keeps
`[0, 0]`; rerunning on that output (now a single shard, indexed correctly)
keeps only `[0]`. -/
theorem claim_C6_idempotence_bug :
    exactOutput [0, 1, 0] 2 = [0, 0] ∧
      exactOutput (exactOutput [0, 1, 0] 2) 2 ≠ exactOutput [0, 1, 0] 2 := by
  decide

theorem getD_map_range {α : Type} (n i : ℕ) (f : ℕ → α) (d : α) (h : i < n) :
    ((List.range n).map f).getD i d = f i := by
  rw [List.getD_eq_getElem?_getD, List.getElem?_map, List.getElem?_range h]
  rfl

/-- C7: for a token sequence of length `L`, guard `m` and `n ≥ 1`, the
shingler returns nothing when `L < m`, the single all-token shingle when
`m ≤ L < n`, and exactly the `L − n + 1` contiguous windows otherwise; and
the emitted shingle set collapses duplicate windows, containing each rendered
window exactly once. -/
theorem claim_C7_shingler (seq : List (List Char)) (n m : ℕ) (hn : 1 ≤ n)
    (content : List Char) :
    (seq.length < m → ngrams seq n m = []) ∧
      (m ≤ seq.length → seq.length < n → ngrams seq n m = [seq]) ∧
      (m ≤ seq.length → n ≤ seq.length →
        (ngrams seq n m).length = seq.length - n + 1 ∧
        ∀ i, i < seq.length - n + 1 →
          (ngrams seq n m).getD i [] = (seq.drop i).take n) ∧
      (shingleList content n).Nodup ∧
      (∀ s, s ∈ shingleList content n ↔
        s ∈ (ngrams (splitNonAlpha content) n 5).map joinSpace) := by
  refine ⟨?_, ?_, ?_, List.nodup_dedup _, fun s => List.mem_dedup⟩
  · intro h
    simp [ngrams, h]
  · intro h1 h2
    have hm : ¬seq.length < m := by omega
    simp [ngrams, h2, hm]
  · intro h1 h2
    have hne : n ≠ 0 := by omega
    have hrw : ngrams seq n m = windows seq n := by
      have hm : ¬seq.length < m := by omega
      have hnn : ¬seq.length < n := by omega
      simp [ngrams, hm, hnn]
    have hcnt : seq.length + 1 - n = seq.length - n + 1 := by omega
    constructor
    · rw [hrw]
      simp [windows, hne, hcnt]
    · intro i hi
      rw [hrw]
      simp only [windows, if_neg hne]
      exact getD_map_range _ i _ [] (by omega)

theorem claim_C7_shingler_witness :
    1 ≤ 2 ∧
      (ngrams [['a'], ['b'], ['c'], ['d'], ['e']] 2 5).length = 4 ∧
      (shingleList ['a', ' ', 'b'] 2).Nodup :=
  ⟨by decide,
    by
      have h := (claim_C7_shingler [['a'], ['b'], ['c'], ['d'], ['e']] 2 5
        (by decide) ['a', ' ', 'b']).2.2.1 (by decide) (by decide)
      simpa using h.1,
    (claim_C7_shingler [['a'], ['b'], ['c'], ['d'], ['e']] 2 5 (by decide)
      ['a', ' ', 'b']).2.2.2.1⟩

theorem getD_zipWith {α β γ : Type} (f : α → β → γ) :
    ∀ (A : List α) (B : List β) (i : ℕ) (da : α) (db : β) (dc : γ),
      i < A.length → i < B.length →
      (List.zipWith f A B).getD i dc = f (A.getD i da) (B.getD i db) := by
  intro A
  induction A with
  | nil => intro B i da db dc hi; simp at hi
  | cons a A ih =>
    intro B i da db dc hi hib
    cases B with
    | nil => simp at hib
    | cons b B =>
      cases i with
      | zero => rfl
      | succ i =>
        simp only [List.zipWith_cons_cons, List.getD_cons_succ]
        exact ih B i da db dc (by simpa using hi) (by simpa using hib)

/-- C3 (counterexample): the claimed identity fails at the 32-bit hash
`h = 2^32 − 1` with permutation pair `a = 2^61 − 2`, `b = 5` (valid:
`a ∈ [1, P)`, `b ∈ [0, P)`): the product `h·a` exceeds `2^64`, numpy
wraps it, and the computed slot is `13` while the exact
`((h·a + b) mod P) & (2^32 − 1)` is `5`. -/
theorem claim_C3_minhash_arithmetic_cex :
    permRow (2 ^ 32 - 1) [2 ^ 61 - 2] [5] = [13] ∧
      ((2 ^ 32 - 1) * (2 ^ 61 - 2) + 5) % MERSENNE_PRIME &&& MAX_HASH = 5 ∧
      (2 ^ 32 - 1 : ℕ) < 2 ^ 32 ∧ (1 : ℕ) ≤ 2 ^ 61 - 2 ∧
      (2 ^ 61 - 2 : ℕ) < MERSENNE_PRIME ∧ (5 : ℕ) < MERSENNE_PRIME ∧
      ¬(2 ^ 32 - 1 : ℕ) * (2 ^ 61 - 2) + 5 < 2 ^ 64 := by
  refine ⟨?_, by decide, by decide, by decide, by decide, by decide, by decide⟩
  decide

/-- C3 (amended): slot `i` of the permuted-hash row holds
`(((h · a) mod 2^64 + b) mod 2^64 mod P) & (2^32 − 1)` — the `uint64`
products and sums wrap — and this coincides with the exact mathematical
`((h · a + b) mod P) & (2^32 − 1)` exactly when `h · a + b` does not
overflow 64 bits. -/
theorem claim_C3_minhash_arithmetic_amended (h : ℕ) (A B : List ℕ) (i : ℕ)
    (hiA : i < A.length) (hiB : i < B.length) :
    (permRow h A B).getD i 0 =
      add64 (mul64 h (A.getD i 0)) (B.getD i 0) % MERSENNE_PRIME &&& MAX_HASH ∧
      (h * A.getD i 0 + B.getD i 0 < 2 ^ 64 →
        (permRow h A B).getD i 0 =
          (h * A.getD i 0 + B.getD i 0) % MERSENNE_PRIME &&& MAX_HASH) := by
  have hrow : (permRow h A B).getD i 0 =
      add64 (mul64 h (A.getD i 0)) (B.getD i 0) % MERSENNE_PRIME &&& MAX_HASH := by
    unfold permRow
    exact getD_zipWith _ A B i 0 0 0 hiA hiB
  refine ⟨hrow, fun hnw => ?_⟩
  rw [hrow]
  unfold add64 mul64
  have h1 : h * A.getD i 0 < 2 ^ 64 := by omega
  rw [Nat.mod_eq_of_lt h1, Nat.mod_eq_of_lt hnw]

theorem claim_C3_minhash_arithmetic_amended_witness :
    (0 : ℕ) < 1 ∧
      (permRow 3 [7] [11]).getD 0 0 = (3 * 7 + 11) % MERSENNE_PRIME &&& MAX_HASH :=
  ⟨by decide,
    (claim_C3_minhash_arithmetic_amended 3 [7] [11] 0 (by decide) (by decide)).2
      (by decide)⟩

/-! ### Band-key encoding lemmas -/

theorem leBytes_of_digits (c0 c1 c2 c3 c4 c5 c6 c7 : ℕ) (h0 : c0 < 256)
    (h1 : c1 < 256) (h2 : c2 < 256) (h3 : c3 < 256) (h4 : c4 < 256)
    (h5 : c5 < 256) (h6 : c6 < 256) (h7 : c7 < 256) :
    leBytes64 (c0 * 2 ^ 56 + c1 * 2 ^ 48 + c2 * 2 ^ 40 + c3 * 2 ^ 32 +
        c4 * 2 ^ 24 + c5 * 2 ^ 16 + c6 * 2 ^ 8 + c7) =
      [c7, c6, c5, c4, c3, c2, c1, c0] := by
  unfold leBytes64
  simp only [List.cons.injEq, and_true]
  omega

/-- Serializing the byteswapped `uint64` little-endian yields exactly the
big-endian byte encoding of the original value. -/
theorem byteswap_bytes (v : ℕ) :
    leBytes64 (byteswap64 v) = beBytes64 v := by
  unfold byteswap64 beBytes64
  exact leBytes_of_digits _ _ _ _ _ _ _ _ (by omega) (by omega) (by omega)
    (by omega) (by omega) (by omega) (by omega) (by omega)

theorem exists_of_mem_zipWith {α β γ : Type} (f : α → β → γ) :
    ∀ (A : List α) (B : List β) (v : γ), v ∈ List.zipWith f A B →
      ∃ a b, a ∈ A ∧ b ∈ B ∧ v = f a b := by
  intro A
  induction A with
  | nil => intro B v h; simp at h
  | cons a A ih =>
    intro B v h
    cases B with
    | nil => simp at h
    | cons b B =>
      rcases List.mem_cons.mp h with h | h
      · exact ⟨a, b, List.mem_cons_self a A, List.mem_cons_self b B, h⟩
      · obtain ⟨a', b', ha, hb, rfl⟩ := ih B v h
        exact ⟨a', b', List.mem_cons_of_mem a ha, List.mem_cons_of_mem b hb, rfl⟩

theorem permRow_lt (h : ℕ) (A B : List ℕ) (v : ℕ) (hv : v ∈ permRow h A B) :
    v < 2 ^ 32 := by
  obtain ⟨a, b, _, _, rfl⟩ := exists_of_mem_zipWith _ A B v hv
  have := Nat.and_le_right
    (n := add64 (mul64 h a) b % MERSENNE_PRIME) (m := MAX_HASH)
  unfold MAX_HASH at this ⊢
  omega

theorem sigFromTokens_lt (hashFn : List Char → ℕ) (A B : List ℕ) (k : ℕ)
    (tokens : List (List Char)) :
    ∀ v ∈ sigFromTokens hashFn A B k tokens, v < 2 ^ 32 := by
  unfold sigFromTokens
  have base : ∀ v ∈ List.replicate k MAX_HASH, v < 2 ^ 32 := by
    intro v hv
    rw [List.eq_of_mem_replicate hv]
    unfold MAX_HASH
    omega
  generalize List.replicate k MAX_HASH = acc at base ⊢
  induction tokens generalizing acc with
  | nil => exact base
  | cons t ts ih =>
    simp only [List.foldl_cons]
    apply ih
    intro v hv
    obtain ⟨a, b, ha, hb, rfl⟩ := exists_of_mem_zipWith _ _ _ v hv
    exact lt_of_le_of_lt (min_le_right a b) (permRow_lt _ A B b hb)

theorem sigFromTokens_length (hashFn : List Char → ℕ) (A B : List ℕ) (k : ℕ)
    (tokens : List (List Char)) (hA : A.length = k) (hB : B.length = k) :
    (sigFromTokens hashFn A B k tokens).length = k := by
  unfold sigFromTokens
  have base : (List.replicate k MAX_HASH).length = k := List.length_replicate k _
  generalize List.replicate k MAX_HASH = acc at base ⊢
  induction tokens generalizing acc with
  | nil => exact base
  | cons t ts ih =>
    simp only [List.foldl_cons]
    apply ih
    rw [List.length_zipWith, base]
    unfold permRow
    rw [List.length_zipWith, hA, hB]
    simp

/-- C4 (counterexample): the signature array has dtype `uint64`, so with
`r = 1` the band key of a record is 8 bytes, not `4·r = 4`: the empty-shingle
record `"a"` has signature entry `2^32 − 1` and band key
`[0,0,0,0,255,255,255,255]`. -/
theorem claim_C4_band_key_cex :
    (bandKeysOf demoHash [1] [0] 1 1 1 1 ['a']).getD 0 [] =
      [0, 0, 0, 0, 255, 255, 255, 255] ∧
      ((bandKeysOf demoHash [1] [0] 1 1 1 1 ['a']).getD 0 []).length ≠ 4 * 1 := by
  constructor
  · decide
  · decide

/-- C4 (amended): band `t`'s key is the concatenation of the big-endian
64-bit encodings of the `r` consecutive signature entries of the band, hence
`8·r` bytes long (not `4·r`); every signature entry is `< 2^32`, so each
8-byte group begins with four zero bytes; and the encoding is a pure
function of the signature, identical across runs. -/
theorem claim_C4_band_key_encoding_amended (hashFn : List Char → ℕ)
    (A B : List ℕ) (k n bB bR : ℕ) (content : List Char) (t : ℕ)
    (ht : t < bB) (hA : A.length = k) (hB : B.length = k) (hk : bB * bR ≤ k) :
    (bandKeysOf hashFn A B k n bB bR content).getD t [] =
      ((((sigOf hashFn A B k n content).drop (t * bR)).take bR).map
        beBytes64).flatten ∧
      ((bandKeysOf hashFn A B k n bB bR content).getD t []).length = 8 * bR ∧
      (∀ v ∈ sigOf hashFn A B k n content,
        v < 2 ^ 32 ∧ (beBytes64 v).take 4 = [0, 0, 0, 0]) := by
  have hget : (bandKeysOf hashFn A B k n bB bR content).getD t [] =
      bandKeyBytes (sigOf hashFn A B k n content) (t * bR) ((t + 1) * bR) := by
    unfold bandKeysOf hashranges
    rw [List.map_map]
    exact getD_map_range bB t _ [] ht
  have hspan : (t + 1) * bR - t * bR = bR := by
    have : (t + 1) * bR = t * bR + bR := by ring
    omega
  have hbe : bandKeyBytes (sigOf hashFn A B k n content) (t * bR) ((t + 1) * bR) =
      ((((sigOf hashFn A B k n content).drop (t * bR)).take bR).map
        beBytes64).flatten := by
    unfold bandKeyBytes
    rw [hspan]
    congr 1
    exact List.map_congr_left (fun v _ => byteswap_bytes v)
  have hsiglen : (sigOf hashFn A B k n content).length = k :=
    sigFromTokens_length hashFn A B k _ hA hB
  have hslice : (((sigOf hashFn A B k n content).drop (t * bR)).take bR).length = bR := by
    rw [List.length_take, List.length_drop, hsiglen]
    have h1 : (t + 1) * bR ≤ bB * bR := Nat.mul_le_mul_right bR (by omega)
    have h2 : (t + 1) * bR = t * bR + bR := by ring
    omega
  refine ⟨hget.trans hbe, ?_, ?_⟩
  · rw [hget.trans hbe, List.length_flatten, List.map_map]
    have hc : ∀ l : List ℕ, l.map (fun v => (beBytes64 v).length) =
        l.map (fun _ => 8) :=
      fun l => List.map_congr_left (fun v _ => rfl)
    rw [show (List.length ∘ beBytes64) = fun v => (beBytes64 v).length from rfl,
      hc, List.map_const', List.sum_replicate, hslice, smul_eq_mul]
    omega
  · intro v hv
    have hlt := sigFromTokens_lt hashFn A B k _ v hv
    refine ⟨hlt, ?_⟩
    unfold beBytes64
    simp only [List.take_succ_cons, List.take_zero, List.cons.injEq, and_true]
    omega

theorem claim_C4_band_key_encoding_amended_witness :
    (0 : ℕ) < 1 ∧
      (bandKeysOf demoHash [1] [0] 1 1 1 1 ['a']).getD 0 [] =
        ((((sigOf demoHash [1] [0] 1 1 ['a']).drop (0 * 1)).take 1).map
          beBytes64).flatten ∧
      ((bandKeysOf demoHash [1] [0] 1 1 1 1 ['a']).getD 0 []).length = 8 * 1 :=
  ⟨by decide,
    (claim_C4_band_key_encoding_amended demoHash [1] [0] 1 1 1 1 ['a'] 0
      (by decide) (by decide) (by decide) (by decide)).1,
    (claim_C4_band_key_encoding_amended demoHash [1] [0] 1 1 1 1 ['a'] 0
      (by decide) (by decide) (by decide) (by decide)).2.1⟩

/-! ### Shingle rendering lemmas -/

theorem splitNonAlpha_ne_nil : ∀ s : List Char, splitNonAlpha s ≠ [] := by
  intro s
  induction s with
  | nil => simp [splitNonAlpha]
  | cons c rest ih =>
    simp only [splitNonAlpha]
    split
    · cases h : splitNonAlpha rest with
      | nil => exact absurd h ih
      | cons t ts => simp [h]
    · simp

theorem splitNonAlpha_wordChars :
    ∀ (s : List Char) (t : List Char), t ∈ splitNonAlpha s →
      ∀ c ∈ t, isWordChar c = true := by
  intro s
  induction s with
  | nil =>
    intro t ht c hc
    simp only [splitNonAlpha, List.mem_singleton] at ht
    subst ht
    cases hc
  | cons d rest ih =>
    intro t ht c hc
    simp only [splitNonAlpha] at ht
    by_cases hd : isWordChar d
    · rw [if_pos hd] at ht
      cases hr : splitNonAlpha rest with
      | nil => exact absurd hr (splitNonAlpha_ne_nil rest)
      | cons t0 ts =>
        rw [hr] at ht
        rcases List.mem_cons.mp ht with h | h
        · subst h
          rcases List.mem_cons.mp hc with h | h
          · subst h; exact hd
          · exact ih t0 (by rw [hr]; exact List.mem_cons_self t0 ts) c h
        · exact ih t (by rw [hr]; exact List.mem_cons_of_mem t0 h) c hc
    · rw [if_neg hd] at ht
      rcases List.mem_cons.mp ht with h | h
      · subst h; cases hc
      · exact ih t h c hc

theorem mem_of_mem_ngrams (seq : List (List Char)) (n m : ℕ)
    (w : List (List Char)) (hw : w ∈ ngrams seq n m) :
    ∀ t ∈ w, t ∈ seq := by
  unfold ngrams at hw
  split at hw
  · cases hw
  · split at hw
    · rw [List.mem_singleton] at hw
      subst hw
      exact fun t ht => ht
    · unfold windows at hw
      split at hw
      · cases hw
      · rw [List.mem_map] at hw
        obtain ⟨i, _, rfl⟩ := hw
        exact fun t ht => List.mem_of_mem_drop (List.mem_of_mem_take ht)

theorem isWordChar_ne_space {c : Char} (h : isWordChar c = true) : c ≠ ' ' := by
  intro hc
  subst hc
  simp [isWordChar] at h

theorem chain_of_wordChars (t : List Char) (h : ∀ c ∈ t, isWordChar c = true) :
    List.Chain' (fun a b => ¬(a = ' ' ∧ b = ' ')) t := by
  induction t with
  | nil => exact List.chain'_nil
  | cons c t ih =>
    rw [List.chain'_cons']
    refine ⟨fun y _ hy => ?_, ih (fun c hc => h c (List.mem_cons_of_mem _ hc))⟩
    exact isWordChar_ne_space (h c (List.mem_cons_self c t)) hy.1

theorem joinSpace_ne_nil (w : List (List Char)) (hw : w ≠ [])
    (h : ∀ t ∈ w, t ≠ []) : joinSpace w ≠ [] := by
  cases w with
  | nil => exact absurd rfl hw
  | cons t rest =>
    cases rest with
    | nil => exact h t (List.mem_cons_self t [])
    | cons t2 rest2 =>
      simp only [joinSpace]
      intro hcontra
      rcases List.append_eq_nil.mp hcontra with ⟨_, h2⟩
      cases h2

/-- Rendering property of `" ".join` on nonempty tokens of word characters:
no leading space, no trailing space, no two adjacent spaces. -/
theorem joinSpace_props (w : List (List Char))
    (h : ∀ t ∈ w, t ≠ [] ∧ ∀ c ∈ t, isWordChar c = true) :
    (joinSpace w).head? ≠ some ' ' ∧ (joinSpace w).getLast? ≠ some ' ' ∧
      List.Chain' (fun a b => ¬(a = ' ' ∧ b = ' ')) (joinSpace w) := by
  induction w with
  | nil =>
    refine ⟨by simp [joinSpace], by simp [joinSpace], ?_⟩
    simp [joinSpace]
  | cons t rest ih =>
    have ht : t ≠ [] ∧ ∀ c ∈ t, isWordChar c = true :=
      h t (List.mem_cons_self t rest)
    cases rest with
    | nil =>
      have hjoin : joinSpace [t] = t := rfl
      rw [hjoin]
      refine ⟨?_, ?_, chain_of_wordChars t ht.2⟩
      · intro hc
        cases t with
        | nil => cases hc
        | cons c t' =>
          rw [List.head?_cons, Option.some.injEq] at hc
          exact isWordChar_ne_space (ht.2 c (List.mem_cons_self c t')) hc
      · intro hc
        rw [List.getLast?_eq_getLast t ht.1, Option.some.injEq] at hc
        exact isWordChar_ne_space (ht.2 _ (List.getLast_mem ht.1)) hc
    | cons t2 rest2 =>
      have hrest : ∀ u ∈ t2 :: rest2, u ≠ [] ∧ ∀ c ∈ u, isWordChar c = true :=
        fun u hu => h u (List.mem_cons_of_mem t hu)
      obtain ⟨ihh, ihl, ihc⟩ := ih hrest
      have hjr : joinSpace (t2 :: rest2) ≠ [] :=
        joinSpace_ne_nil _ (by simp) (fun u hu => (hrest u hu).1)
      have hjoin : joinSpace (t :: t2 :: rest2) =
          t ++ ' ' :: joinSpace (t2 :: rest2) := rfl
      rw [hjoin]
      refine ⟨?_, ?_, ?_⟩
      · cases t with
        | nil => exact absurd rfl ht.1
        | cons c t' =>
          rw [List.cons_append, List.head?_cons]
          intro hc
          rw [Option.some.injEq] at hc
          exact isWordChar_ne_space (ht.2 c (List.mem_cons_self c t')) hc
      · rw [List.getLast?_append]
        have h1 : (' ' :: joinSpace (t2 :: rest2)).getLast? =
            (joinSpace (t2 :: rest2)).getLast? := by
          cases hj : joinSpace (t2 :: rest2) with
          | nil => exact absurd hj hjr
          | cons a l => rw [List.getLast?_cons_cons]
        rw [h1]
        cases hj : (joinSpace (t2 :: rest2)).getLast? with
        | none =>
          rw [List.getLast?_eq_getLast _ hjr] at hj
          cases hj
        | some a =>
          rw [hj] at ihl
          simpa using ihl
      · rw [List.chain'_append]
        refine ⟨chain_of_wordChars t ht.2, ?_, ?_⟩
        · rw [List.chain'_cons']
          refine ⟨?_, ihc⟩
          intro y hy hcontra
          rw [Option.mem_def] at hy
          rw [hcontra.2] at hy
          exact ihh hy
        · intro x hx y hy hcontra
          rw [Option.mem_def, List.head?_cons, Option.some.injEq] at hy
          rw [Option.mem_def, List.getLast?_eq_getLast t ht.1,
            Option.some.injEq] at hx
          subst hx
          exact isWordChar_ne_space (ht.2 _ (List.getLast_mem ht.1)) hcontra.1

/-- C9 (counterexample): the regex split produces empty tokens at runs of
delimiters, and those render as stray spaces.  For content `"a! b c d e"`
with `n = 2`, the fuzzy engine emits the shingle `"a "` — its trailing
character is a space, refuting "no trailing space". -/
theorem claim_C9_shingle_rendering_cex :
    ['a', ' '] ∈ shingleList ['a', '!', ' ', 'b', ' ', 'c', ' ', 'd', ' ', 'e'] 2 ∧
      (['a', ' '] : List Char).getLast? = some ' ' := by
  constructor
  · decide
  · rfl

/-- C9 (amended): every shingle emitted by the fuzzy engine is the rendering
of a window of split tokens joined by exactly one ASCII space each; when
every token of the window is nonempty (the regex split can produce empty
tokens, which give stray spaces), the rendered shingle has no leading space,
no trailing space, and no two consecutive spaces. -/
theorem claim_C9_shingle_rendering_amended (content : List Char) (n : ℕ)
    (s : List Char) (hs : s ∈ shingleList content n) :
    ∃ w, w ∈ ngrams (splitNonAlpha content) n 5 ∧ s = joinSpace w ∧
      ((∀ t ∈ w, t ≠ []) →
        s.head? ≠ some ' ' ∧ s.getLast? ≠ some ' ' ∧
          List.Chain' (fun a b => ¬(a = ' ' ∧ b = ' ')) s) := by
  unfold shingleList at hs
  rw [List.mem_dedup, List.mem_map] at hs
  obtain ⟨w, hw, rfl⟩ := hs
  refine ⟨w, hw, rfl, fun hne => ?_⟩
  exact joinSpace_props w (fun t ht =>
    ⟨hne t ht, splitNonAlpha_wordChars content t
      (mem_of_mem_ngrams _ n 5 w hw t ht) ⟩)

theorem claim_C9_shingle_rendering_amended_witness :
    (['a', ' ', 'b'] : List Char) ∈
        shingleList ['a', ' ', 'b', ' ', 'c', ' ', 'd', ' ', 'e'] 2 ∧
      (['a', ' ', 'b'] : List Char).getLast? ≠ some ' ' := by
  refine ⟨by decide, ?_⟩
  obtain ⟨w, hw, hjoin, hprops⟩ :=
    claim_C9_shingle_rendering_amended ['a', ' ', 'b', ' ', 'c', ' ', 'd', ' ', 'e']
      2 ['a', ' ', 'b'] (by decide)
  refine (hprops ?_).2.1
  intro t ht
  have hall : ∀ u ∈ splitNonAlpha ['a', ' ', 'b', ' ', 'c', ' ', 'd', ' ', 'e'],
      u ≠ [] := by decide
  exact hall t (mem_of_mem_ngrams _ 2 5 w hw t ht)

/-! ### Signature determinism and congruence -/

theorem zipWith_min_right_comm :
    ∀ (acc r1 r2 : List ℕ),
      List.zipWith min (List.zipWith min acc r1) r2 =
        List.zipWith min (List.zipWith min acc r2) r1 := by
  intro acc
  induction acc with
  | nil => intro r1 r2; simp
  | cons a acc ih =>
    intro r1 r2
    cases r1 with
    | nil => cases r2 <;> simp
    | cons b r1 =>
      cases r2 with
      | nil => simp
      | cons c r2 =>
        simp only [List.zipWith_cons_cons]
        rw [ih r1 r2, min_right_comm]

theorem sigFromTokens_perm (hashFn : List Char → ℕ) (A B : List ℕ) (k : ℕ)
    (t1 t2 : List (List Char)) (hp : t1.Perm t2) :
    sigFromTokens hashFn A B k t1 = sigFromTokens hashFn A B k t2 := by
  unfold sigFromTokens
  exact @List.Perm.foldl_eq _ _
    (fun acc t => List.zipWith min acc (permRow (hashFn t) A B)) t1 t2
    ⟨fun acc x y => zipWith_min_right_comm acc _ _⟩ hp _

/-- C5: the signature is a pure function of the shingle multiset — invariant
under any reordering of set iteration (hence identical across runs and
thread counts) — and two records with equal shingle sets (Jaccard
similarity 1) get equal signatures, equal band keys in every band, and are
co-bucketed in every band. -/
theorem claim_C5_signature_determinism (cfg : FuzzyConfig)
    (corpus : List (List Char)) (i j t : ℕ) (hi : i < corpus.length)
    (hj : j < corpus.length) (ht : t < cfg.bands)
    (hsets : (shingleList (corpus.getD i []) cfg.ngramSize).toFinset =
      (shingleList (corpus.getD j []) cfg.ngramSize).toFinset) :
    (∀ t1 t2 : List (List Char), t1.Perm t2 →
      sigFromTokens cfg.hashFn cfg.A cfg.B cfg.numPerm t1 =
        sigFromTokens cfg.hashFn cfg.A cfg.B cfg.numPerm t2) ∧
      sigOf cfg.hashFn cfg.A cfg.B cfg.numPerm cfg.ngramSize (corpus.getD i []) =
        sigOf cfg.hashFn cfg.A cfg.B cfg.numPerm cfg.ngramSize (corpus.getD j []) ∧
      keyAt cfg corpus t i = keyAt cfg corpus t j ∧
      i ∈ bucketOf cfg corpus t (keyAt cfg corpus t i) ∧
      j ∈ bucketOf cfg corpus t (keyAt cfg corpus t i) := by
  have hperm : (shingleList (corpus.getD i []) cfg.ngramSize).Perm
      (shingleList (corpus.getD j []) cfg.ngramSize) :=
    List.perm_of_nodup_nodup_toFinset_eq (List.nodup_dedup _)
      (List.nodup_dedup _) hsets
  have hsig : sigOf cfg.hashFn cfg.A cfg.B cfg.numPerm cfg.ngramSize
      (corpus.getD i []) =
      sigOf cfg.hashFn cfg.A cfg.B cfg.numPerm cfg.ngramSize (corpus.getD j []) :=
    sigFromTokens_perm cfg.hashFn cfg.A cfg.B cfg.numPerm _ _ hperm
  have hkeys : keyAt cfg corpus t i = keyAt cfg corpus t j := by
    unfold keyAt bandKeysOf sigOf
    unfold sigOf at hsig
    rw [hsig]
  refine ⟨fun t1 t2 hp => sigFromTokens_perm cfg.hashFn cfg.A cfg.B cfg.numPerm
    t1 t2 hp, hsig, hkeys, ?_, ?_⟩
  · exact (mem_bucketOf cfg corpus t _ i).mpr ⟨hi, rfl⟩
  · exact (mem_bucketOf cfg corpus t _ j).mpr ⟨hj, hkeys.symm⟩

/-- Corpus of two identical records for the C5 witness. -/
def demoCorpusDup : List (List Char) := [['a', 'b'], ['a', 'b']]

theorem claim_C5_signature_determinism_witness :
    1 < demoCorpusDup.length ∧
      keyAt demoCfg demoCorpusDup 0 0 = keyAt demoCfg demoCorpusDup 0 1 ∧
      1 ∈ bucketOf demoCfg demoCorpusDup 0 (keyAt demoCfg demoCorpusDup 0 0) :=
  ⟨by decide,
    (claim_C5_signature_determinism demoCfg demoCorpusDup 0 1 0 (by decide)
      (by decide) (by decide) (by decide)).2.2.1,
    (claim_C5_signature_determinism demoCfg demoCorpusDup 0 1 0 (by decide)
      (by decide) (by decide) (by decide)).2.2.2.2⟩

/-! ### Parameter oracle lemmas -/

theorem mem_sweepList (k b r : ℕ) :
    (b, r) ∈ sweepList k ↔ 1 ≤ b ∧ b ≤ k ∧ 1 ≤ r ∧ r ≤ k / b := by
  unfold sweepList
  simp only [List.mem_flatMap, List.mem_map, List.mem_range]
  constructor
  · rintro ⟨b0, hb0, r0, hr0, heq⟩
    obtain ⟨h1, h2⟩ := Prod.mk.injEq .. ▸ heq
    refine ⟨by omega, by omega, by omega, ?_⟩
    rw [← h1]
    omega
  · rintro ⟨h1, h2, h3, h4⟩
    refine ⟨b - 1, by omega, r - 1, ?_, ?_⟩
    · have hb : b - 1 + 1 = b := by omega
      rw [hb]
      omega
    · have hb : b - 1 + 1 = b := by omega
      have hr : r - 1 + 1 = r := by omega
      rw [hb, hr]

theorem sweep_bounds (k : ℕ) (c : ℕ × ℕ) (hc : c ∈ sweepList k) :
    1 ≤ c.1 ∧ 1 ≤ c.2 ∧ c.1 * c.2 ≤ k := by
  obtain ⟨b, r⟩ := c
  rw [mem_sweepList] at hc
  show 1 ≤ b ∧ 1 ≤ r ∧ b * r ≤ k
  obtain ⟨h1, h2, h3, h4⟩ := hc
  have h5 : b * r ≤ b * (k / b) := Nat.mul_le_mul_left b h4
  have h6 : b * (k / b) ≤ k := Nat.mul_div_le k b
  exact ⟨h1, h3, by omega⟩

theorem selectLoop_spec (err : ℕ → ℕ → ℚ) :
    ∀ (l : List (ℕ × ℕ)) (m : ℚ) (opt : ℕ × ℕ), err opt.1 opt.2 = m →
      err (selectLoop err l (some m) opt).1 (selectLoop err l (some m) opt).2 ≤ m ∧
      (∀ c ∈ l, err (selectLoop err l (some m) opt).1
        (selectLoop err l (some m) opt).2 ≤ err c.1 c.2) ∧
      (selectLoop err l (some m) opt = opt ∨
        ∃ l1 l2, l = l1 ++ selectLoop err l (some m) opt :: l2 ∧
          err (selectLoop err l (some m) opt).1
            (selectLoop err l (some m) opt).2 < m ∧
          ∀ c ∈ l1, err (selectLoop err l (some m) opt).1
            (selectLoop err l (some m) opt).2 < err c.1 c.2) := by
  intro l
  induction l with
  | nil =>
    intro m opt hm
    refine ⟨le_of_eq hm, fun c hc => absurd hc (List.not_mem_nil c), Or.inl rfl⟩
  | cons c rest ih =>
    intro m opt hm
    by_cases hlt : err c.1 c.2 < m
    · have hsel : selectLoop err (c :: rest) (some m) opt =
          selectLoop err rest (some (err c.1 c.2)) c := by
        simp [selectLoop, hlt]
      obtain ⟨ha, hb, hc'⟩ := ih (err c.1 c.2) c rfl
      rw [hsel]
      refine ⟨le_of_lt (lt_of_le_of_lt ha hlt), ?_, ?_⟩
      · intro c' hc2
        rcases List.mem_cons.mp hc2 with h | h
        · subst h; exact ha
        · exact hb c' h
      · rcases hc' with h | ⟨l1, l2, hsplit, hstrict, hall⟩
        · refine Or.inr ⟨[], rest, ?_, ?_, ?_⟩
          · rw [h]; rfl
          · rw [h]; exact hlt
          · intro c' hc2; cases hc2
        · refine Or.inr ⟨c :: l1, l2, ?_, ?_, ?_⟩
          · rw [List.cons_append, ← hsplit]
          · exact lt_trans hstrict hlt
          · intro c' hc2
            rcases List.mem_cons.mp hc2 with h | h
            · subst h; exact hstrict
            · exact hall c' h
    · have hsel : selectLoop err (c :: rest) (some m) opt =
          selectLoop err rest (some m) opt := by
        simp [selectLoop, hlt]
      obtain ⟨ha, hb, hc'⟩ := ih m opt hm
      rw [hsel]
      refine ⟨ha, ?_, ?_⟩
      · intro c' hc2
        rcases List.mem_cons.mp hc2 with h | h
        · subst h
          exact le_trans ha (not_lt.mp hlt)
        · exact hb c' h
      · rcases hc' with h | ⟨l1, l2, hsplit, hstrict, hall⟩
        · exact Or.inl h
        · refine Or.inr ⟨c :: l1, l2, ?_, hstrict, ?_⟩
          · rw [List.cons_append, ← hsplit]
          · intro c' hc2
            rcases List.mem_cons.mp hc2 with h | h
            · subst h
              exact lt_of_lt_of_le hstrict (not_lt.mp hlt)
            · exact hall c' h

/-- C8: for any per-candidate weighted error values (the integrals are
computed externally by adaptive quadrature), `optimal_param` returns a pair
`(b, r)` from the sweep `b ∈ [1, k]`, `r ∈ [1, ⌊k/b⌋]` — so `1 ≤ b`,
`1 ≤ r`, `b·r ≤ k` — whose error is no larger than that of every candidate
of the sweep, and which is the first candidate in scan order attaining that
minimum (ties break to the candidate scanned first). -/
theorem claim_C8_optimal_param (err : ℕ → ℕ → ℚ) (k : ℕ) (hk : 1 ≤ k) :
    1 ≤ (optimalParam err k).1 ∧ 1 ≤ (optimalParam err k).2 ∧
      (optimalParam err k).1 * (optimalParam err k).2 ≤ k ∧
      (∀ c ∈ sweepList k,
        err (optimalParam err k).1 (optimalParam err k).2 ≤ err c.1 c.2) ∧
      ∃ l1 l2, sweepList k = l1 ++ optimalParam err k :: l2 ∧
        ∀ c ∈ l1,
          err (optimalParam err k).1 (optimalParam err k).2 < err c.1 c.2 := by
  have h11 : ((1 : ℕ), (1 : ℕ)) ∈ sweepList k := by
    rw [mem_sweepList]
    refine ⟨le_refl 1, hk, le_refl 1, ?_⟩
    rw [Nat.div_one]
    exact hk
  cases hsw : sweepList k with
  | nil => rw [hsw] at h11; cases h11
  | cons c rest =>
    obtain ⟨ha, hb, hc'⟩ := selectLoop_spec err rest (err c.1 c.2) c rfl
    set res := selectLoop err rest (some (err c.1 c.2)) c with hres
    have hopt : optimalParam err k = res := by
      unfold optimalParam
      rw [hsw]
      show selectLoop err rest (some (err c.1 c.2)) c = res
      rw [hres]
    rw [hopt]
    have hmem : res ∈ sweepList k := by
      rw [hsw]
      rcases hc' with h | ⟨l1, l2, hsplit, _, _⟩
      · rw [h]
        exact List.mem_cons_self c rest
      · rw [hsplit]
        exact List.mem_cons_of_mem c
          (List.mem_append_right l1 (List.mem_cons_self _ l2))
    obtain ⟨hb1, hr1, hbr⟩ := sweep_bounds k res hmem
    refine ⟨hb1, hr1, hbr, ?_, ?_⟩
    · intro c' hc2
      rcases List.mem_cons.mp hc2 with h | h
      · subst h; exact ha
      · exact hb c' h
    · rcases hc' with h | ⟨l1, l2, hsplit, hstrict, hall⟩
      · refine ⟨[], rest, ?_, fun c' hc2 => absurd hc2 (List.not_mem_nil c')⟩
        rw [h]
        rfl
      · refine ⟨c :: l1, l2, ?_, ?_⟩
        · rw [hsplit]
          rfl
        · intro c' hc2
          rcases List.mem_cons.mp hc2 with h | h
          · subst h; exact hstrict
          · exact hall c' h

/-- Concrete error function for the C8 witness. -/
def errDemo (b r : ℕ) : ℚ := ((b + r : ℕ) : ℚ)

theorem claim_C8_optimal_param_witness :
    1 ≤ 2 ∧ 1 ≤ (optimalParam errDemo 2).1 ∧ 1 ≤ (optimalParam errDemo 2).2 ∧
      (optimalParam errDemo 2).1 * (optimalParam errDemo 2).2 ≤ 2 :=
  ⟨by decide, (claim_C8_optimal_param errDemo 2 (by decide)).1,
    (claim_C8_optimal_param errDemo 2 (by decide)).2.1,
    (claim_C8_optimal_param errDemo 2 (by decide)).2.2.1⟩

end TextDedup
